import Mathlib

/-!
Verification of the BGL graph / ValueSet native extension of tools-roby.

The development shallowly embeds the C++ sources:
* `src/ext/value_set/value_set.cc` — the ValueSet container (a wrapper
  around `std::set<VALUE>`, ordered by the raw VALUE), modelled as sorted
  lists of naturals together with the `<algorithm>` merge routines it uses;
* `src/ext/bgl.cc` and `src/ext/roby_bgl/graph.cc` — the BGL::Graph store
  (a boost `adjacency_list` with `setS` vertex and edge containers) and the
  BGL::Vertex membership index (the per-value `@__bgl_graphs__` map from
  graph to vertex descriptor), modelled as a `World` holding one store per
  graph identity plus the per-value descriptor map;
* the traversal and component algorithms of `src/ext/bgl.cc`
  (`depth_first_visit` with a terminator, `connected_components`,
  `graph_components` with its seed handling and Ruby array mechanics).

Ruby VALUEs are modelled as naturals (identity ordering, as documented in
value_set.cc: "the values are ordered by their VALUE").
-/

namespace Roby

/-! ### ValueSet: `src/ext/value_set/value_set.cc`

A ValueSet wraps a `std::set<VALUE>`; we model the set by its sorted list
of elements.  A Ruby argument to a ValueSet method is either a ValueSet or
some other object (the `rb_obj_is_kind_of(vother, cValueSet)` test). -/

/-- A Ruby value passed to a ValueSet method: a ValueSet (carrying its
element list) or any non-ValueSet object (carrying an opaque tag). -/
inductive RubyVal where
  | vset : List Nat → RubyVal
  | nonset : Nat → RubyVal
deriving DecidableEq

/-- Errors raised through `rb_raise` by the ValueSet methods. -/
inductive RbErr where
  | argError : RbErr
deriving DecidableEq

/-- `std::set_union` on sorted ranges, as called by `value_set_union`:
on equal heads the element of the first range is emitted and both ranges
advance. -/
def setUnion : List Nat → List Nat → List Nat
  | [], l2 => l2
  | l1, [] => l1
  | a :: l1, b :: l2 =>
    if a < b then a :: setUnion l1 (b :: l2)
    else if b < a then b :: setUnion (a :: l1) l2
    else a :: setUnion l1 l2
termination_by l1 l2 => l1.length + l2.length

/-- `std::set_intersection` on sorted ranges, as called by
`value_set_intersection`: emits the element of the first range when the
heads are equal. -/
def setInter : List Nat → List Nat → List Nat
  | [], _ => []
  | _ :: _, [] => []
  | a :: l1, b :: l2 =>
    if a < b then setInter l1 (b :: l2)
    else if b < a then setInter (a :: l1) l2
    else a :: setInter l1 l2
termination_by l1 l2 => l1.length + l2.length

/-- `std::set_difference` on sorted ranges, as called by
`value_set_difference` and `value_set_difference_bang`. -/
def setDiff : List Nat → List Nat → List Nat
  | l1, [] => l1
  | [], _ :: _ => []
  | a :: l1, b :: l2 =>
    if a < b then a :: setDiff l1 (b :: l2)
    else if b < a then setDiff (a :: l1) l2
    else setDiff l1 l2
termination_by l1 l2 => l1.length + l2.length

/-- `std::includes` on sorted ranges, as called by
`value_set_include_all_p`: true iff every element of the second range
occurs in the first. -/
def setIncludes : List Nat → List Nat → Bool
  | _, [] => true
  | [], _ :: _ => false
  | a :: l1, b :: l2 =>
    if b < a then false
    else if a < b then setIncludes l1 (b :: l2)
    else setIncludes l1 l2
termination_by l1 l2 => l1.length + l2.length

/-- The merge scan of `value_set_intersects` (value_set.cc:213-236):
true as soon as a common element is found. -/
def setIntersects : List Nat → List Nat → Bool
  | [], _ => false
  | _ :: _, [] => false
  | a :: l1, b :: l2 =>
    if a < b then setIntersects l1 (b :: l2)
    else if b < a then setIntersects (a :: l1) l2
    else true
termination_by l1 l2 => l1.length + l2.length

/-- Model of `value_set_include_p` (value_set.cc:89-93): `self.find`. -/
def value_set_include_p (s : List Nat) (v : Nat) : Bool :=
  decide (v ∈ s)

/-- Model of `value_set_empty_p` (value_set.cc:29-33). -/
def value_set_empty_p (s : List Nat) : Bool :=
  s.isEmpty

/-- Model of `value_set_equal` (value_set.cc:311-318): a non-ValueSet
argument compares unequal (no raise); two ValueSets compare by
`std::set::operator==`, i.e. element-list equality. -/
def value_set_equal (s : List Nat) (other : RubyVal) : Bool :=
  match other with
  | .vset t => decide (s = t)
  | .nonset _ => false

/-- Model of `value_set_union` (value_set.cc:137-149): raises ArgumentError
on a non-ValueSet argument, otherwise `std::set_union`. -/
def value_set_union (s : List Nat) (other : RubyVal) : Except RbErr (List Nat) :=
  match other with
  | .vset t => .ok (setUnion s t)
  | .nonset _ => .error .argError

/-- Model of `value_set_intersection` (value_set.cc:194-206). -/
def value_set_intersection (s : List Nat) (other : RubyVal) : Except RbErr (List Nat) :=
  match other with
  | .vset t => .ok (setInter s t)
  | .nonset _ => .error .argError

/-- Model of `value_set_difference` (value_set.cc:266-278). -/
def value_set_difference (s : List Nat) (other : RubyVal) : Except RbErr (List Nat) :=
  match other with
  | .vset t => .ok (setDiff s t)
  | .nonset _ => .error .argError

/-- Model of `value_set_merge` (value_set.cc:156-165): inserts every
element of the other set into self; on sorted sets the result is the
sorted union. -/
def value_set_merge (s : List Nat) (other : RubyVal) : Except RbErr (List Nat) :=
  match other with
  | .vset t => .ok (setUnion s t)
  | .nonset _ => .error .argError

/-- Model of `value_set_include_all_p` (value_set.cc:121-128). -/
def value_set_include_all_p (s : List Nat) (other : RubyVal) : Except RbErr Bool :=
  match other with
  | .vset t => .ok (setIncludes s t)
  | .nonset _ => .error .argError

/-- Model of `value_set_intersects` (value_set.cc:213-236). -/
def value_set_intersects (s : List Nat) (other : RubyVal) : Except RbErr Bool :=
  match other with
  | .vset t => .ok (setIntersects s t)
  | .nonset _ => .error .argError

/-- Model of `value_set_difference_bang` (value_set.cc:244-257): computes
`std::set_difference` into a fresh set, then swaps it into `self` only when
the computed size differs from `self`'s size.  The returned list is the
final contents of `self`. -/
def value_set_difference_bang (s : List Nat) (other : RubyVal) : Except RbErr (List Nat) :=
  match other with
  | .vset t =>
    let result := setDiff s t
    if result.length ≠ s.length then .ok result else .ok s
  | .nonset _ => .error .argError

/-! ### BGL graph store and vertex membership index

`src/ext/bgl.cc` and `src/ext/roby_bgl/graph.cc` store a graph as a boost
`adjacency_list<setS, setS, bidirectionalS, VALUE, ...>`: a set of vertex
slots, each holding the externally owned vertex value, plus a set of
directed edges between slots, each holding an edge payload.  A vertex slot
is designated by an opaque `vertex_descriptor`; we model descriptors as
naturals allocated from a per-store counter.

Each vertex value carries the `@__bgl_graphs__` instance variable: a
`std::map<VALUE, vertex_descriptor>` from graph identity to the value's
descriptor in that graph (`graph_map`).  A `World` packages the stores of
all graphs with the descriptor maps of all values. -/

/-- Association-list lookup keyed by decidable equality (used for the
descriptor-indexed vertex slots and for descriptor-pair-indexed edges). -/
def alookup {K A : Type} [DecidableEq K] : List (K × A) → K → Option A
  | [], _ => none
  | (k, x) :: l, d => if k = d then some x else alookup l d

/-- One boost `adjacency_list`: vertex slots (descriptor, value), edge set
((source descriptor, target descriptor), payload), and the descriptor
allocation counter. -/
structure Store (V P : Type) where
  verts : List (Nat × V)
  edges : List ((Nat × Nat) × P)
  fresh : Nat

/-- A freshly constructed graph (graph_alloc). -/
def emptyStore (V P : Type) : Store V P :=
  ⟨[], [], 0⟩

/-- boost `add_vertex`: allocate a fresh slot holding value `v`; returns
the new store and the new descriptor. -/
def Store.addVertex {V P : Type} (s : Store V P) (v : V) : Store V P × Nat :=
  (⟨(s.fresh, v) :: s.verts, s.edges, s.fresh + 1⟩, s.fresh)

/-- boost `clear_vertex`: remove every edge incident to descriptor `d`. -/
def Store.clearVertex {V P : Type} (s : Store V P) (d : Nat) : Store V P :=
  ⟨s.verts, s.edges.filter (fun e => ¬(e.1.1 = d ∨ e.1.2 = d)), s.fresh⟩

/-- boost `remove_vertex`: drop the slot of descriptor `d`. -/
def Store.removeVertex {V P : Type} (s : Store V P) (d : Nat) : Store V P :=
  ⟨s.verts.filter (fun p => p.1 ≠ d), s.edges, s.fresh⟩

/-- boost `edge(s, t, g)`: payload of the edge from `a` to `b`, if any. -/
def Store.edgeLookup {V P : Type} (s : Store V P) (a b : Nat) : Option P :=
  alookup s.edges (a, b)

/-- boost `add_edge` with a `setS` edge container: no parallel edges; if
the edge already exists nothing changes (the existing payload is kept) and
the returned flag is false. -/
def Store.addEdge {V P : Type} (s : Store V P) (a b : Nat) (p : P) :
    Store V P × Bool :=
  if (s.edgeLookup a b).isSome then (s, false)
  else (⟨s.verts, ((a, b), p) :: s.edges, s.fresh⟩, true)

/-- boost `remove_edge`. -/
def Store.removeEdge {V P : Type} (s : Store V P) (a b : Nat) : Store V P :=
  ⟨s.verts, s.edges.filter (fun e => e.1 ≠ (a, b)), s.fresh⟩

/-- Vertex values held in the store's slots, in slot order. -/
def Store.values {V P : Type} (s : Store V P) : List V :=
  s.verts.map Prod.snd

/-- The store's descriptors, in slot order. -/
def Store.descs {V P : Type} (s : Store V P) : List Nat :=
  s.verts.map Prod.fst

/-- Out-edge (forward) successor descriptors of `d`. -/
def Store.succs {V P : Type} (s : Store V P) (d : Nat) : List Nat :=
  (s.edges.filter (fun e => e.1.1 = d)).map (fun e => e.1.2)

/-- In-edge (backward) predecessor descriptors of `d`. -/
def Store.preds {V P : Type} (s : Store V P) (d : Nat) : List Nat :=
  (s.edges.filter (fun e => e.1.2 = d)).map (fun e => e.1.1)

/-- Neighbor descriptors under the undirected view
(`utilmm::undirected_graph`): out-neighbors and in-neighbors. -/
def Store.uadj {V P : Type} (s : Store V P) (d : Nat) : List Nat :=
  s.succs d ++ s.preds d

/-- The whole extension state: one adjacency store per graph identity `G`,
and for each vertex value its `@__bgl_graphs__` descriptor map (modelled as
a function to `Option Nat`: `none` means the map has no entry for that
graph, which also covers a value that has no map at all). -/
structure World (G V P : Type) where
  stores : G → Store V P
  idx : V → G → Option Nat

/-- A world with no graph contents and no descriptor-map entries. -/
def emptyWorld (G V P : Type) : World G V P :=
  ⟨fun _ => emptyStore V P, fun _ _ => none⟩

/-- Replace the store of graph `g`. -/
def World.setStore {G V P : Type} [DecidableEq G]
    (w : World G V P) (g : G) (s : Store V P) : World G V P :=
  ⟨Function.update w.stores g s, w.idx⟩

/-- Set (or erase, with `none`) the descriptor-map entry of value `v` for
graph `g`. -/
def World.setIdx {G V P : Type} [DecidableEq G] [DecidableEq V]
    (w : World G V P) (v : V) (g : G) (d : Option Nat) : World G V P :=
  ⟨w.stores, fun v' g' => if v' = v ∧ g' = g then d else w.idx v' g'⟩

/-- Errors raised through `rb_raise` by the graph methods. -/
inductive GraphErr where
  | duplicateEdge : GraphErr
  | noSuchEdge : GraphErr
  | vertexNotInGraph : GraphErr
  | invalidArgument : GraphErr
deriving DecidableEq

/-- Model of `graph_ensure_inserted_vertex` (bgl.cc:222-233,
roby_bgl/graph.cc:220-231): if the value's descriptor map has an entry for
this graph return it, otherwise insert the value as a fresh vertex (this is
`graph_insert`) and return the new descriptor. -/
def graph_ensure {G V P : Type} [DecidableEq G] [DecidableEq V]
    (w : World G V P) (g : G) (v : V) : World G V P × Nat :=
  match w.idx v g with
  | some d => (w, d)
  | none =>
    let r := (w.stores g).addVertex v
    (((w.setStore g r.1).setIdx v g (some r.2)), r.2)

/-- Model of `graph_insert` (roby_bgl/graph.cc:140-153, bgl.cc:169-182):
no-op when the value already has a descriptor for this graph; otherwise
`add_vertex` and record the new descriptor in the value's map. -/
def graph_insert {G V P : Type} [DecidableEq G] [DecidableEq V]
    (w : World G V P) (g : G) (v : V) : World G V P :=
  (graph_ensure w g v).1

/-- Model of `graph_remove` (roby_bgl/graph.cc:164-179, bgl.cc:190-204):
no-op when the value has no descriptor for this graph; otherwise
`clear_vertex` (detach all incident edges), `remove_vertex`, and erase the
value's descriptor-map entry. -/
def graph_remove {G V P : Type} [DecidableEq G] [DecidableEq V]
    (w : World G V P) (g : G) (v : V) : World G V P :=
  match w.idx v g with
  | none => w
  | some d =>
    (w.setStore g (((w.stores g).clearVertex d).removeVertex d)).setIdx v g none

/-- Model of `graph_include_p` (roby_bgl/graph.cc:211-216, bgl.cc:212-218):
membership is decided through `rb_to_vertex`, i.e. the value's descriptor
map. -/
def graph_include_p {G V P : Type} [DecidableEq G] [DecidableEq V]
    (w : World G V P) (g : G) (v : V) : Bool :=
  (w.idx v g).isSome

/-- Model of `graph_clear` (roby_bgl/graph.cc:187-204): erase this graph's
entry from the descriptor map of every value held in the store, then clear
the adjacency store. -/
def graph_clear {G V P : Type} [DecidableEq G] [DecidableEq V]
    (w : World G V P) (g : G) : World G V P :=
  { stores := Function.update w.stores g ⟨[], [], (w.stores g).fresh⟩
    idx := fun v g' =>
      if g' = g ∧ (w.stores g).verts.any (fun pr => pr.2 = v) then none
      else w.idx v g' }

/-- Model of `graph_link` (bgl.cc:242-256, roby_bgl/graph.cc:245-259):
auto-insert both endpoints, then `add_edge`; if the edge already exists the
call raises (DuplicateEdge) — the auto-inserts survive the raise and the
existing edge keeps its payload.  Returns the post-call world and the
error, if any. -/
def graph_link {G V P : Type} [DecidableEq G] [DecidableEq V]
    (w : World G V P) (g : G) (a b : V) (p : P) :
    World G V P × Option GraphErr :=
  let r1 := graph_ensure w g a
  let r2 := graph_ensure r1.1 g b
  let r3 := (r2.1.stores g).addEdge r1.2 r2.2 p
  if r3.2 then (r2.1.setStore g r3.1, none)
  else (r2.1, some .duplicateEdge)

/-- Model of `graph_unlink` (bgl.cc:265-277, roby_bgl/graph.cc:269-282):
no-op when either endpoint is absent; otherwise `remove_edge` (a no-op when
the edge does not exist). -/
def graph_unlink {G V P : Type} [DecidableEq G] [DecidableEq V]
    (w : World G V P) (g : G) (a b : V) : World G V P :=
  match w.idx a g with
  | none => w
  | some s =>
    match w.idx b g with
    | none => w
    | some t => w.setStore g ((w.stores g).removeEdge s t)

/-- Model of `graph_linked_p` (bgl.cc:285-296). -/
def graph_linked_p {G V P : Type} [DecidableEq G] [DecidableEq V]
    (w : World G V P) (g : G) (a b : V) : Bool :=
  match w.idx a g, w.idx b g with
  | some s, some t => ((w.stores g).edgeLookup s t).isSome
  | _, _ => false

/-- Model of `vertex_get_info` / edge_payload (bgl.cc:569-587,
roby_bgl/graph.cc:587-605): raises when an endpoint is not in the graph or
when the edge does not exist. -/
def edge_payload {G V P : Type} [DecidableEq G] [DecidableEq V]
    (w : World G V P) (g : G) (a b : V) : Except GraphErr P :=
  match w.idx a g with
  | none => .error .vertexNotInGraph
  | some s =>
    match w.idx b g with
    | none => .error .vertexNotInGraph
    | some t =>
      match (w.stores g).edgeLookup s t with
      | none => .error .noSuchEdge
      | some p => .ok p

/-! ### Depth-first traversal

`graph_each_dfs` (bgl.cc:945-957) runs boost `depth_first_visit` with a
terminator function (`search_terminator`, bgl.cc:928-943).  Boost's
non-recursive `depth_first_visit_impl` colors a vertex gray when it is
discovered, consults the terminator once — right then, before the vertex's
out-edges are expanded — and if the terminator returns true pushes an empty
edge range for it, so that exactly that vertex's subtree expansion is
skipped.  The terminator reads and clears the thread-local `@prune` flag
the visitor may have set (`graph_prune`, bgl.cc:938-943).

`dfsCore` is that engine with the visitor boiled down to the discovery
sequence.  `prune d = true` models "the visitor has just set the prune flag
when `d` was discovered".  The explicit stack holds the pending vertices;
a popped vertex that is already colored (in `vis`) or is not a vertex of
the graph is skipped; a discovered vertex is recorded and its successors —
none, if the terminator fired — are pushed. -/
def dfsCore (verts : List Nat) (succ : Nat → List Nat) (prune : Nat → Bool) :
    List Nat → List Nat → List Nat
  | [], vis => vis
  | v :: stack, vis =>
    if h : v ∈ vis ∨ ¬ v ∈ verts then
      dfsCore verts succ prune stack vis
    else
      dfsCore verts succ prune
        ((if prune v then [] else (succ v).filter (fun x => x ∈ verts)) ++ stack)
        (v :: vis)
termination_by stack vis => ((verts.filter (fun x => ¬ x ∈ vis)).length, stack.length)
decreasing_by
· exact Prod.Lex.right _ (Nat.lt_succ_self _)
· refine Prod.Lex.left _ _ ?_
  have hvv : ¬ v ∈ vis := (not_or.mp h).1
  have hvV : v ∈ verts := not_not.mp (not_or.mp h).2
  clear h
  induction verts with
  | nil => cases hvV
  | cons a l ih =>
    by_cases hav : a = v
    · subst hav
      rw [List.filter_cons_of_neg (by simp), List.filter_cons_of_pos (by simpa using hvv)]
      refine Nat.lt_succ_of_le (List.Sublist.length_le ?_)
      refine List.monotone_filter_right _ (fun x hx => ?_)
      simp only [decide_eq_true_eq, List.mem_cons, not_or] at hx ⊢
      exact hx.2
    · have hvl : v ∈ l := by
        rcases List.mem_cons.mp hvV with h1 | h1
        · exact absurd h1.symm hav
        · exact h1
      have hsame : (decide (¬ a ∈ v :: vis)) = (decide (¬ a ∈ vis)) := by
        simp only [List.mem_cons, not_or, decide_eq_decide]
        constructor
        · exact fun hp => hp.2
        · exact fun hp => ⟨hav, hp⟩
      simp only [List.filter_cons]
      rw [hsame]
      cases hd : decide (¬ a ∈ vis) with
      | false => exact ih hvl
      | true => simpa using Nat.succ_lt_succ (ih hvl)

/-- The vertices discovered by `graph_each_dfs` started at descriptor `r`,
with the visitor setting the prune flag at the vertices selected by
`prune` (most recently discovered first). -/
def Store.dfsVisited {V P : Type} (s : Store V P) (r : Nat) (prune : Nat → Bool) :
    List Nat :=
  dfsCore s.descs s.succs prune [r] []

/-- Model of `graph_each_dfs` (bgl.cc:945-957) at the World level: an
absent root is a no-op (empty discovery sequence), otherwise boost
`depth_first_visit` from the root's descriptor. -/
def each_dfs_visited {G V P : Type} [DecidableEq G] [DecidableEq V]
    (w : World G V P) (g : G) (root : V) (prune : Nat → Bool) : List Nat :=
  match w.idx root g with
  | none => []
  | some r => (w.stores g).dfsVisited r prune

/-- One step along an edge filtered by the terminator: from `a` — where the
terminator did not fire — to a successor `b` that is a vertex of the
traversed graph. -/
def DStep (verts : List Nat) (succ : Nat → List Nat) (prune : Nat → Bool)
    (a b : Nat) : Prop :=
  prune a = false ∧ b ∈ succ a ∧ b ∈ verts

/-- A single forward edge step between descriptors of store `s`. -/
def StoreStep {V P : Type} (s : Store V P) (a b : Nat) : Prop :=
  b ∈ s.succs a ∧ b ∈ s.descs

/-- A directed path in store `s`: consecutive elements are joined by
forward edges. -/
def IsPathIn {V P : Type} (s : Store V P) (l : List Nat) : Prop :=
  l.Chain' (StoreStep s)

/-- Every directed path of `s` from `R` to `w` contains `X`. -/
def OnlyThrough {V P : Type} (s : Store V P) (R X w : Nat) : Prop :=
  ∀ l : List Nat, l.head? = some R → l.getLast? = some w → IsPathIn s l → X ∈ l

/-- Some directed path of `s` from `R` to `w` never touches `X`. -/
def ReachAvoiding {V P : Type} (s : Store V P) (R X w : Nat) : Prop :=
  ∃ l : List Nat, l.head? = some R ∧ l.getLast? = some w ∧ IsPathIn s l ∧ ¬ X ∈ l

/-- Forward-edge reachability between descriptors of `s`. -/
def StoreReach {V P : Type} (s : Store V P) (a b : Nat) : Prop :=
  Relation.ReflTransGen (StoreStep s) a b

/-! ### Connected components

`graph_components` (bgl.cc:815-873) first runs boost
`connected_components` over the undirected view of the store, which scans
the vertices in slot order and, for each vertex that is still white,
assigns a new component id to everything reachable from it in the
undirected view (sharing one color map across the scan). -/

/-- The scan of boost `connected_components`: `acc` is the descriptor ↦
component id map built so far, `n` the next component id.  Returns the
final map and the component count. -/
def compAssignAux (verts : List Nat) (adj : Nat → List Nat) :
    List Nat → List (Nat × Nat) → Nat → List (Nat × Nat) × Nat
  | [], acc, n => (acc, n)
  | d :: rest, acc, n =>
    if (alookup acc d).isSome then compAssignAux verts adj rest acc n
    else
      compAssignAux verts adj rest
        (acc ++
          ((dfsCore verts adj (fun _ => false) [d] (acc.map Prod.fst)).filter
            (fun x => ¬ (alookup acc x).isSome)).map (fun x => (x, n)))
        (n + 1)

/-- Component assignment of store `s` under the undirected view, and the
component count. -/
def Store.compAssign {V P : Type} (s : Store V P) : List (Nat × Nat) × Nat :=
  compAssignAux s.descs s.uadj s.descs [] 0

/-- `rb_ary_store(ary, i, x)`: overwrites position `i` when it exists,
otherwise extends the array with nils up to position `i`. -/
def rubyStore {A : Type} (l : List (Option A)) (i : Nat) (x : A) :
    List (Option A) :=
  if i < l.length then l.set i (some x)
  else l ++ List.replicate (i - l.length) none ++ [some x]

/-- Model of `graph_components` (bgl.cc:815-873).  After
`connected_components`, the result array `ret` is built in three phases:

* seed scan (only when seeds are given): a seed absent from the graph is
  pushed into `ret` as a singleton array; a present seed enables its
  component id (with no seeds, every component is enabled);
* store loop: for every enabled component id `i` (in increasing order) a
  Ruby array is stored into `ret` **at position `i`** with
  `rb_ary_store` — later the `component_map` iteration pushes every vertex
  value into the array object of its component, so the array stored at
  position `i` ends up holding exactly the values assigned id `i` (the
  model stores those final contents directly);
* `compact!` drops the remaining nil slots. -/
def graph_components {G V P : Type} [DecidableEq G] [DecidableEq V]
    (w : World G V P) (g : G) (seeds : List V) : List (List V) :=
  let s := w.stores g
  let assign := s.compAssign.1
  let count := s.compAssign.2
  let enabled : Nat → Bool := fun i =>
    if seeds.isEmpty then true
    else seeds.any (fun v =>
      match w.idx v g with
      | some d => alookup assign d == some i
      | none => false)
  let ret0 : List (Option (List V)) :=
    if seeds.isEmpty then []
    else (seeds.filter (fun v => ¬ (w.idx v g).isSome)).map (fun v => some [v])
  let group : Nat → List V := fun i =>
    (s.verts.filter (fun pr => alookup assign pr.1 == some i)).map Prod.snd
  let ret1 := (List.range count).foldl
    (fun acc i => if enabled i then rubyStore acc i (group i) else acc) ret0
  ret1.reduceOption

/-! ### Breadth-first traversal: the edge-class mask check

`graph_each_bfs` (bgl.cc:999-1016) first validates the caller's edge-class
mask: BFS only distinguishes tree from non-tree edges, so requesting
exactly one of the two halves (BACK, FORWARD_OR_CROSS) of the non-tree
category is rejected with `rb_raise(rb_eArgError, ...)` before anything
else happens.  Past the check, the traversal only yields edges to the
caller's block and returns `self`, which the model collapses to `.ok ()`
(an absent root simply yields nothing). -/

def VISIT_TREE_EDGES : Nat := 1

def VISIT_BACK_EDGES : Nat := 2

def VISIT_FORWARD_OR_CROSS_EDGES : Nat := 4

def VISIT_NON_TREE_EDGES : Nat := 6

/-- Model of `graph_each_bfs` (bgl.cc:999-1016): the mask check, then the
traversal (which cannot fail). -/
def graph_each_bfs {G V P : Type} [DecidableEq G] [DecidableEq V]
    (w : World G V P) (g : G) (root : V) (mode : Nat) : Except GraphErr Unit :=
  if mode &&& VISIT_NON_TREE_EDGES ≠ 0 ∧
      mode &&& VISIT_NON_TREE_EDGES ≠ VISIT_NON_TREE_EDGES then
    .error .invalidArgument
  else
    .ok ()

/-- Model of `graph_each_bfs_reverse` (bgl.cc:1024-1029): same engine over
the reverse view. -/
def reverse_each_bfs {G V P : Type} [DecidableEq G] [DecidableEq V]
    (w : World G V P) (g : G) (root : V) (mode : Nat) : Except GraphErr Unit :=
  graph_each_bfs w g root mode

/-- Model of `graph_each_bfs_undirected` (bgl.cc:1030-1035): same engine
over the undirected view. -/
def undirected_each_bfs {G V P : Type} [DecidableEq G] [DecidableEq V]
    (w : World G V P) (g : G) (root : V) (mode : Nat) : Except GraphErr Unit :=
  graph_each_bfs w g root mode

/-! ### The bidirectional membership invariant

The graph store and the membership index are kept in sync: a value `v` is
held in a slot of graph `g`'s store exactly when `v`'s descriptor map has
an entry for `g`, and that entry is the slot's descriptor.  Together with
two structural facts about the store (slot descriptors are distinct, and
all below the allocation counter) this is the invariant every public
mutation maintains. -/
def WorldInv {G V P : Type} [DecidableEq G] [DecidableEq V]
    (w : World G V P) : Prop :=
  (∀ g v d, w.idx v g = some d → alookup (w.stores g).verts d = some v) ∧
  (∀ g d v, alookup (w.stores g).verts d = some v → w.idx v g = some d) ∧
  (∀ g, ((w.stores g).verts.map Prod.fst).Nodup) ∧
  (∀ g d v, (d, v) ∈ (w.stores g).verts → d < (w.stores g).fresh)

/-- A small concrete store exercising the traversal theorems: descriptors
0 → 1, 0 → 2, 1 → 3 (values 10-13, payloads 0). -/
def dfsExample : Store Nat Nat :=
  ⟨[(0, 10), (1, 11), (2, 12), (3, 13)],
   [((0, 1), 0), ((0, 2), 0), ((1, 3), 0)], 4⟩

/-! ## Theorems

### ValueSet lemmas -/

theorem mem_setUnion (x : Nat) : ∀ l1 l2 : List Nat,
    x ∈ setUnion l1 l2 ↔ x ∈ l1 ∨ x ∈ l2 := by
  intro l1 l2
  induction l1, l2 using setUnion.induct with
  | case1 l2 => simp [setUnion]
  | case2 l1 => simp [setUnion]
  | case3 a l1 b l2 hab ih =>
    simp only [setUnion]
    rw [if_pos hab]
    simp only [List.mem_cons, ih]
    tauto
  | case4 a l1 b l2 hab hba ih =>
    simp only [setUnion]
    rw [if_neg hab, if_pos hba]
    simp only [List.mem_cons, ih]
    tauto
  | case5 a l1 b l2 hab hba ih =>
    have heq : a = b := Nat.le_antisymm (Nat.not_lt.mp hba) (Nat.not_lt.mp hab)
    subst heq
    simp only [setUnion]
    rw [if_neg hab, if_neg hba]
    simp only [List.mem_cons, ih]
    tauto

theorem setInter_sublist : ∀ l1 l2 : List Nat, List.Sublist (setInter l1 l2) l1 := by
  intro l1 l2
  induction l1, l2 using setInter.induct with
  | case1 l2 => simp [setInter]
  | case2 a l1 => simp [setInter]
  | case3 a l1 b l2 hab ih =>
    simp only [setInter]
    rw [if_pos hab]
    exact ih.cons a
  | case4 a l1 b l2 hab hba ih =>
    simp only [setInter]
    rw [if_neg hab, if_pos hba]
    exact ih
  | case5 a l1 b l2 hab hba ih =>
    simp only [setInter]
    rw [if_neg hab, if_neg hba]
    exact ih.cons_cons a

theorem mem_setInter (x : Nat) : ∀ l1 l2 : List Nat,
    l1.Sorted (· < ·) → l2.Sorted (· < ·) →
    (x ∈ setInter l1 l2 ↔ x ∈ l1 ∧ x ∈ l2) := by
  intro l1 l2
  induction l1, l2 using setInter.induct with
  | case1 l2 => simp [setInter]
  | case2 a l1 => simp [setInter]
  | case3 a l1 b l2 hab ih =>
    intro hS hT
    simp only [setInter]
    rw [if_pos hab, ih hS.of_cons hT]
    constructor
    · exact fun ⟨h1, h2⟩ => ⟨List.mem_cons_of_mem a h1, h2⟩
    · rintro ⟨h1, h2⟩
      rcases List.mem_cons.mp h1 with hxa | hxl
      · subst hxa
        rcases List.mem_cons.mp h2 with hxb | hxl2
        · omega
        · have := (List.sorted_cons.mp hT).1 x hxl2
          omega
      · exact ⟨hxl, h2⟩
  | case4 a l1 b l2 hab hba ih =>
    intro hS hT
    simp only [setInter]
    rw [if_neg hab, if_pos hba, ih hS hT.of_cons]
    constructor
    · exact fun ⟨h1, h2⟩ => ⟨h1, List.mem_cons_of_mem b h2⟩
    · rintro ⟨h1, h2⟩
      rcases List.mem_cons.mp h2 with hxb | hxl2
      · subst hxb
        rcases List.mem_cons.mp h1 with hxa | hxl
        · omega
        · have := (List.sorted_cons.mp hS).1 x hxl
          omega
      · exact ⟨h1, hxl2⟩
  | case5 a l1 b l2 hab hba ih =>
    intro hS hT
    have heq : a = b := Nat.le_antisymm (Nat.not_lt.mp hba) (Nat.not_lt.mp hab)
    subst heq
    simp only [setInter]
    rw [if_neg hab, if_neg hba]
    simp only [List.mem_cons, ih hS.of_cons hT.of_cons]
    tauto

theorem sorted_eq_of_mem_iff : ∀ l1 l2 : List Nat, l1.Sorted (· < ·) →
    l2.Sorted (· < ·) → (∀ x, x ∈ l1 ↔ x ∈ l2) → l1 = l2 := by
  intro l1
  induction l1 with
  | nil =>
    intro l2 _ _ hmem
    cases l2 with
    | nil => rfl
    | cons b l2 => exact absurd ((hmem b).mpr (List.mem_cons_self b l2)) (List.not_mem_nil b)
  | cons a l1 ih =>
    intro l2 hS hT hmem
    cases l2 with
    | nil => exact absurd ((hmem a).mp (List.mem_cons_self a l1)) (List.not_mem_nil a)
    | cons b l2 =>
      have hab : a = b := by
        rcases List.mem_cons.mp ((hmem a).mp (List.mem_cons_self a l1)) with h1 | h1
        · exact h1
        · rcases List.mem_cons.mp ((hmem b).mpr (List.mem_cons_self b l2)) with h2 | h2
          · exact h2.symm
          · have hba := (List.sorted_cons.mp hT).1 a h1
            have hab := (List.sorted_cons.mp hS).1 b h2
            omega
      subst hab
      have htail : ∀ x, x ∈ l1 ↔ x ∈ l2 := by
        intro x
        constructor
        · intro hx
          have hax := (List.sorted_cons.mp hS).1 x hx
          rcases List.mem_cons.mp ((hmem x).mp (List.mem_cons_of_mem a hx)) with h1 | h1
          · omega
          · exact h1
        · intro hx
          have hax := (List.sorted_cons.mp hT).1 x hx
          rcases List.mem_cons.mp ((hmem x).mpr (List.mem_cons_of_mem a hx)) with h1 | h1
          · omega
          · exact h1
      rw [ih l2 hS.of_cons hT.of_cons htail]

theorem setInter_comm (S T : List Nat) (hS : S.Sorted (· < ·))
    (hT : T.Sorted (· < ·)) : setInter S T = setInter T S := by
  refine sorted_eq_of_mem_iff _ _ (hS.sublist (setInter_sublist S T))
    (hT.sublist (setInter_sublist T S)) (fun x => ?_)
  rw [mem_setInter x S T hS hT, mem_setInter x T S hT hS]
  exact and_comm

theorem setDiff_self : ∀ l : List Nat, setDiff l l = [] := by
  intro l
  induction l with
  | nil => simp [setDiff]
  | cons a l ih =>
    simp only [setDiff]
    rw [if_neg (lt_irrefl a), if_neg (lt_irrefl a)]
    exact ih

theorem setDiff_sublist : ∀ l1 l2 : List Nat, List.Sublist (setDiff l1 l2) l1 := by
  intro l1 l2
  induction l1, l2 using setDiff.induct with
  | case1 l1 => simp [setDiff]
  | case2 b l2 => simp [setDiff]
  | case3 a l1 b l2 hab ih =>
    simp only [setDiff]
    rw [if_pos hab]
    exact ih.cons_cons a
  | case4 a l1 b l2 hab hba ih =>
    simp only [setDiff]
    rw [if_neg hab, if_pos hba]
    exact ih
  | case5 a l1 b l2 hab hba ih =>
    simp only [setDiff]
    rw [if_neg hab, if_neg hba]
    exact ih.cons a

/-- Claim C7: for ValueSet containers S and T (sorted element lists) and
every value x: membership in the union is the disjunction of the
memberships; intersection is commutative up to ValueSet equality
(`value_set_equal`); and the difference of a set with itself is empty. -/
theorem claim_C7_value_set_algebra (S T : List Nat) (hS : S.Sorted (· < ·))
    (hT : T.Sorted (· < ·)) :
    (∀ x, value_set_include_p (setUnion S T) x =
      (value_set_include_p S x || value_set_include_p T x)) ∧
    value_set_equal (setInter S T) (.vset (setInter T S)) = true ∧
    value_set_empty_p (setDiff S S) = true := by
  refine ⟨fun x => ?_, ?_, ?_⟩
  · simp [value_set_include_p, mem_setUnion x S T]
  · simp only [value_set_equal, decide_eq_true_eq]
    exact setInter_comm S T hS hT
  · simp only [value_set_empty_p, setDiff_self, List.isEmpty_nil]

/-- Witness for C7 at S = [1, 3], T = [2]. -/
theorem claim_C7_value_set_algebra_witness :
    ([1, 3] : List Nat).Sorted (· < ·) ∧ ([2] : List Nat).Sorted (· < ·) ∧
    ((∀ x, value_set_include_p (setUnion [1, 3] [2]) x =
      (value_set_include_p [1, 3] x || value_set_include_p [2] x)) ∧
    value_set_equal (setInter [1, 3] [2]) (.vset (setInter [2] [1, 3])) = true ∧
    value_set_empty_p (setDiff [1, 3] [1, 3]) = true) :=
  ⟨by decide, by decide,
    claim_C7_value_set_algebra [1, 3] [2] (by decide) (by decide)⟩

/-- Claim C9: the in-place difference (`value_set_difference_bang`) agrees
with the pure difference (`value_set_difference`) on every input, even
though it skips the internal swap when the computed difference has the
same size as self — a subsequence of self of the same length is self. -/
theorem claim_C9_difference_bang_refines_difference (s : List Nat) (o : RubyVal) :
    value_set_difference_bang s o = value_set_difference s o := by
  cases o with
  | nonset t => rfl
  | vset t =>
    simp only [value_set_difference_bang, value_set_difference]
    by_cases h : (setDiff s t).length = s.length
    · rw [if_neg (by simp [h])]
      rw [(setDiff_sublist s t).eq_of_length h]
    · rw [if_pos h]

/-- Claim C10: `==` on a non-ValueSet argument answers false without
raising, while the six set-algebra operations raise ArgumentError on a
non-ValueSet argument. -/
theorem claim_C10_nonset_argument_handling (S : List Nat) (t : Nat) :
    value_set_equal S (.nonset t) = false ∧
    value_set_union S (.nonset t) = .error .argError ∧
    value_set_intersection S (.nonset t) = .error .argError ∧
    value_set_difference S (.nonset t) = .error .argError ∧
    value_set_merge S (.nonset t) = .error .argError ∧
    value_set_include_all_p S (.nonset t) = .error .argError ∧
    value_set_intersects S (.nonset t) = .error .argError :=
  ⟨rfl, rfl, rfl, rfl, rfl, rfl, rfl⟩

/-! ### The BFS edge-class mask check (C5) -/

theorem and_small_mod_eight (m k : Nat) (hk : k < 8) : m &&& k = m % 8 &&& k := by
  apply Nat.eq_of_testBit_eq
  intro i
  simp only [Nat.testBit_and]
  rcases Nat.lt_or_ge i 3 with hi | hi
  · rw [show (8 : Nat) = 2 ^ 3 from rfl, Nat.testBit_mod_two_pow]
    simp [hi]
  · have hpow : (8 : Nat) ≤ 2 ^ i := by
      calc (8 : Nat) = 2 ^ 3 := rfl
      _ ≤ 2 ^ i := Nat.pow_le_pow_right (by norm_num) hi
    rw [Nat.testBit_lt_two_pow (lt_of_lt_of_le hk hpow)]
    simp

theorem bfs_mask_exactly_one (m : Nat) :
    (m &&& VISIT_NON_TREE_EDGES ≠ 0 ∧
      m &&& VISIT_NON_TREE_EDGES ≠ VISIT_NON_TREE_EDGES) ↔
    Xor' (m &&& VISIT_BACK_EDGES ≠ 0) (m &&& VISIT_FORWARD_OR_CROSS_EDGES ≠ 0) := by
  simp only [VISIT_NON_TREE_EDGES, VISIT_BACK_EDGES, VISIT_FORWARD_OR_CROSS_EDGES]
  rw [and_small_mod_eight m 6 (by norm_num), and_small_mod_eight m 2 (by norm_num),
    and_small_mod_eight m 4 (by norm_num)]
  have h8 : m % 8 < 8 := Nat.mod_lt _ (by norm_num)
  revert h8
  generalize m % 8 = r
  intro h8
  interval_cases r <;> decide

/-- Claim C5: breadth-first search (each_bfs and its reverse and undirected
variants) fails with InvalidArgument exactly when the edge-class mask
includes one but not both of the two non-tree classes (BACK,
FORWARD_OR_CROSS); in particular a mask of only BACK fails. -/
theorem claim_C5_bfs_mask_check {G V P : Type} [DecidableEq G] [DecidableEq V]
    (w : World G V P) (g : G) (root : V) (mode : Nat) :
    (graph_each_bfs w g root mode = .error .invalidArgument ↔
      Xor' (mode &&& VISIT_BACK_EDGES ≠ 0) (mode &&& VISIT_FORWARD_OR_CROSS_EDGES ≠ 0)) ∧
    (reverse_each_bfs w g root mode = .error .invalidArgument ↔
      Xor' (mode &&& VISIT_BACK_EDGES ≠ 0) (mode &&& VISIT_FORWARD_OR_CROSS_EDGES ≠ 0)) ∧
    (undirected_each_bfs w g root mode = .error .invalidArgument ↔
      Xor' (mode &&& VISIT_BACK_EDGES ≠ 0) (mode &&& VISIT_FORWARD_OR_CROSS_EDGES ≠ 0)) ∧
    graph_each_bfs w g root VISIT_BACK_EDGES = .error .invalidArgument := by
  have hmain : ∀ md : Nat, graph_each_bfs w g root md = .error .invalidArgument ↔
      Xor' (md &&& VISIT_BACK_EDGES ≠ 0) (md &&& VISIT_FORWARD_OR_CROSS_EDGES ≠ 0) := by
    intro md
    rw [← bfs_mask_exactly_one]
    simp only [graph_each_bfs]
    split
    · rename_i hcond
      simp [hcond]
    · rename_i hcond
      simp [hcond]
  exact ⟨hmain mode, hmain mode, hmain mode, (hmain _).mpr (by decide)⟩

/-! ### Auto-insert and the membership index (C1, C2) -/

theorem graph_ensure_of_some {G V P : Type} [DecidableEq G] [DecidableEq V]
    {w : World G V P} {g : G} {v : V} {d : Nat} (h : w.idx v g = some d) :
    graph_ensure w g v = (w, d) := by
  simp [graph_ensure, h]

theorem graph_ensure_idx_self {G V P : Type} [DecidableEq G] [DecidableEq V]
    (w : World G V P) (g : G) (v : V) :
    (graph_ensure w g v).1.idx v g = some (graph_ensure w g v).2 := by
  cases hv : w.idx v g with
  | some d => rw [graph_ensure_of_some hv]; exact hv
  | none => simp [graph_ensure, hv, World.setIdx, World.setStore]

theorem graph_ensure_idx_mono {G V P : Type} [DecidableEq G] [DecidableEq V]
    {w : World G V P} {g' : G} {v' : V} {d : Nat} (g : G) (v : V)
    (h : w.idx v' g' = some d) :
    (graph_ensure w g v).1.idx v' g' = some d := by
  cases hv : w.idx v g with
  | some e => rw [graph_ensure_of_some hv]; exact h
  | none =>
    simp only [graph_ensure, hv, World.setIdx, World.setStore]
    split
    · rename_i hc
      rw [hc.1, hc.2] at h
      rw [hv] at h
      cases h
    · exact h

theorem setStore_idx {G V P : Type} [DecidableEq G] [DecidableEq V]
    (w : World G V P) (g : G) (st : Store V P) :
    (w.setStore g st).idx = w.idx := rfl

theorem setStore_stores_self {G V P : Type} [DecidableEq G] [DecidableEq V]
    (w : World G V P) (g : G) (st : Store V P) :
    (w.setStore g st).stores g = st := by
  simp [World.setStore]

/-- Claim C1: after a successful `link(g,a,b,p)`, a second
`link(g,a,b,p2)` fails with DuplicateEdge, and after the failed call the
edge (a,b) still exists with payload `p` — the failed call leaves the edge
and its payload untouched. -/
theorem claim_C1_link_duplicate_edge {G V P : Type} [DecidableEq G] [DecidableEq V]
    (w w1 : World G V P) (g : G) (a b : V) (p p2 : P)
    (h : graph_link w g a b p = (w1, none)) :
    (graph_link w1 g a b p2).2 = some GraphErr.duplicateEdge ∧
    edge_payload (graph_link w1 g a b p2).1 g a b = .ok p := by
  rcases hEa : graph_ensure w g a with ⟨wa, s⟩
  rcases hEb : graph_ensure wa g b with ⟨wb, t⟩
  have hsa : wa.idx a g = some s := by
    have := graph_ensure_idx_self w g a
    rw [hEa] at this
    exact this
  have hsb : wb.idx b g = some t := by
    have := graph_ensure_idx_self wa g b
    rw [hEb] at this
    exact this
  have hsa' : wb.idx a g = some s := by
    have := graph_ensure_idx_mono g b hsa
    rw [hEb] at this
    exact this
  simp only [graph_link, hEa, hEb] at h
  by_cases hdup : ((wb.stores g).edgeLookup s t).isSome
  · simp only [Store.addEdge, hdup, if_true] at h
    simp at h
  · simp only [Store.addEdge, hdup] at h
    simp only [Bool.false_eq_true, if_false, if_true, Prod.mk.injEq, and_true] at h
    subst h
    have hidxa : (wb.setStore g
        ⟨(wb.stores g).verts, ((s, t), p) :: (wb.stores g).edges,
          (wb.stores g).fresh⟩).idx a g = some s := hsa'
    have hidxb : (wb.setStore g
        ⟨(wb.stores g).verts, ((s, t), p) :: (wb.stores g).edges,
          (wb.stores g).fresh⟩).idx b g = some t := hsb
    have hlook : ((wb.setStore g
        ⟨(wb.stores g).verts, ((s, t), p) :: (wb.stores g).edges,
          (wb.stores g).fresh⟩).stores g).edgeLookup s t = some p := by
      rw [setStore_stores_self]
      simp [Store.edgeLookup, alookup]
    simp only [graph_link, graph_ensure_of_some hidxa, graph_ensure_of_some hidxb,
      Store.addEdge, hlook, Option.isSome_some, if_true, if_false]
    simp only [Bool.false_eq_true, if_false]
    refine ⟨by trivial, ?_⟩
    simp only [edge_payload, hidxa, hidxb, hlook]

/-- Witness for C1: two vertices linked in a fresh graph, then linked
again. -/
theorem claim_C1_link_duplicate_edge_witness :
    (graph_link ((graph_link (emptyWorld Nat Nat Nat) 0 1 2 5).1) 0 1 2 7).2 =
      some GraphErr.duplicateEdge ∧
    edge_payload (graph_link ((graph_link (emptyWorld Nat Nat Nat) 0 1 2 5).1) 0 1 2 7).1
      0 1 2 = .ok 5 := by
  exact claim_C1_link_duplicate_edge (emptyWorld Nat Nat Nat) _ 0 1 2 5 7 rfl

theorem graph_remove_idx_none {G V P : Type} [DecidableEq G] [DecidableEq V]
    (w : World G V P) (g : G) (v : V) :
    (graph_remove w g v).idx v g = none := by
  cases hv : w.idx v g with
  | none => simp only [graph_remove, hv]
  | some d => simp [graph_remove, hv, World.setIdx, World.setStore]

/-- Claim C2: after `g.insert(v)` followed by `g.remove(v)`, `g.include?(v)`
is false and v's membership index no longer has an entry for g. -/
theorem claim_C2_insert_remove {G V P : Type} [DecidableEq G] [DecidableEq V]
    (w : World G V P) (g : G) (v : V) :
    graph_include_p (graph_remove (graph_insert w g v) g v) g v = false ∧
    (graph_remove (graph_insert w g v) g v).idx v g = none := by
  have h := graph_remove_idx_none (graph_insert w g v) g v
  exact ⟨by simp [graph_include_p, h], h⟩

/-! ### The bidirectional membership invariant (C8) -/

theorem alookup_some_mem {K A : Type} [DecidableEq K] :
    ∀ (l : List (K × A)) (k : K) (x : A), alookup l k = some x → (k, x) ∈ l := by
  intro l
  induction l with
  | nil => intro k x h; cases h
  | cons hd tl ih =>
    intro k x h
    obtain ⟨k', x'⟩ := hd
    simp only [alookup] at h
    by_cases hk : k' = k
    · rw [if_pos hk] at h
      obtain rfl := Option.some.inj h
      subst hk
      exact List.mem_cons_self _ _
    · rw [if_neg hk] at h
      exact List.mem_cons_of_mem _ (ih k x h)

theorem alookup_eq_of_mem {K A : Type} [DecidableEq K] :
    ∀ (l : List (K × A)) (k : K) (x : A), (l.map Prod.fst).Nodup →
      (k, x) ∈ l → alookup l k = some x := by
  intro l
  induction l with
  | nil => intro k x _ h; cases h
  | cons hd tl ih =>
    intro k x hnd hmem
    obtain ⟨k', x'⟩ := hd
    rcases List.mem_cons.mp hmem with hh | ht
    · obtain ⟨rfl, rfl⟩ := Prod.mk.injEq .. ▸ hh
      simp [alookup]
    · simp only [alookup]
      by_cases hk : k' = k
      · exfalso
        subst hk
        have : k' ∈ tl.map Prod.fst := List.mem_map.mpr ⟨(k', x), ht, rfl⟩
        exact (List.nodup_cons.mp (by simpa using hnd)).1 this
      · rw [if_neg hk]
        exact ih k x (List.nodup_cons.mp (by simpa using hnd)).2 ht

theorem alookup_filter_ne {K A : Type} [DecidableEq K] (d : K) :
    ∀ (l : List (K × A)) (k : K), k ≠ d →
      alookup (l.filter (fun pr => pr.1 ≠ d)) k = alookup l k := by
  intro l
  induction l with
  | nil => intro k _; rfl
  | cons hd tl ih =>
    intro k hk
    obtain ⟨k', x'⟩ := hd
    by_cases hkd : k' = d
    · subst hkd
      rw [List.filter_cons_of_neg (by simp)]
      rw [ih k hk]
      simp only [alookup]
      rw [if_neg (fun hh => hk hh.symm)]
    · rw [List.filter_cons_of_pos (by simpa using hkd)]
      simp only [alookup]
      by_cases hkk : k' = k
      · rw [if_pos hkk, if_pos hkk]
      · rw [if_neg hkk, if_neg hkk]
        exact ih k hk

theorem alookup_filter_self {K A : Type} [DecidableEq K] (d : K) :
    ∀ l : List (K × A), alookup (l.filter (fun pr => pr.1 ≠ d)) d = none := by
  intro l
  induction l with
  | nil => rfl
  | cons hd tl ih =>
    obtain ⟨k', x'⟩ := hd
    by_cases hkd : k' = d
    · subst hkd
      rw [List.filter_cons_of_neg (by simp)]
      exact ih
    · rw [List.filter_cons_of_pos (by simpa using hkd)]
      simp only [alookup]
      rw [if_neg hkd]
      exact ih

theorem setIdx_idx {G V P : Type} [DecidableEq G] [DecidableEq V]
    (w : World G V P) (v : V) (g : G) (d : Option Nat) (v' : V) (g' : G) :
    (w.setIdx v g d).idx v' g' = if v' = v ∧ g' = g then d else w.idx v' g' := rfl

theorem setIdx_stores {G V P : Type} [DecidableEq G] [DecidableEq V]
    (w : World G V P) (v : V) (g : G) (d : Option Nat) :
    (w.setIdx v g d).stores = w.stores := rfl

theorem setStore_stores {G V P : Type} [DecidableEq G] [DecidableEq V]
    (w : World G V P) (g : G) (st : Store V P) (g' : G) :
    (w.setStore g st).stores g' = if g' = g then st else w.stores g' := by
  simp [World.setStore, Function.update_apply]

theorem worldInv_ensure {G V P : Type} [DecidableEq G] [DecidableEq V]
    {w : World G V P} (hInv : WorldInv w) (g : G) (v : V) :
    WorldInv (graph_ensure w g v).1 := by
  obtain ⟨h1, h2, h3, h4⟩ := hInv
  cases hv : w.idx v g with
  | some d => rw [graph_ensure_of_some hv]; exact ⟨h1, h2, h3, h4⟩
  | none =>
    simp only [graph_ensure, hv, Store.addVertex]
    refine ⟨?_, ?_, ?_, ?_⟩
    · intro g' v' d' h'
      rw [setIdx_idx] at h'
      rw [setIdx_stores, setStore_stores]
      split at h'
      · rename_i hc
        obtain ⟨rfl, rfl⟩ := hc
        obtain rfl := Option.some.inj h'
        rw [if_pos rfl]
        simp [alookup]
      · rename_i hc
        have hold := h1 g' v' d' h'
        split
        · rename_i hg
          subst hg
          have hmem := alookup_some_mem _ _ _ hold
          have hlt := h4 g' d' v' hmem
          dsimp only
          simp only [alookup]
          rw [if_neg (by omega)]
          exact hold
        · exact hold
    · intro g' d' v' h'
      rw [setIdx_stores, setStore_stores] at h'
      rw [setIdx_idx]
      split at h'
      · rename_i hg
        subst hg
        dsimp only at h'
        simp only [alookup] at h'
        by_cases hd : (w.stores g').fresh = d'
        · rw [if_pos hd] at h'
          obtain rfl := Option.some.inj h'
          rw [if_pos ⟨rfl, rfl⟩, hd]
        · rw [if_neg hd] at h'
          have hold := h2 g' d' v' h'
          rw [if_neg (fun hc => by rw [hc.1] at hold; rw [hv] at hold; cases hold)]
          exact hold
      · rename_i hg
        have hold := h2 g' d' v' h'
        rw [if_neg (fun hc => hg hc.2)]
        exact hold
    · intro g'
      rw [setIdx_stores, setStore_stores]
      split
      · rename_i hg
        subst hg
        dsimp only
        simp only [List.map_cons, List.nodup_cons]
        refine ⟨fun hmem => ?_, h3 g'⟩
        obtain ⟨⟨dk, dv⟩, hmem', hfst⟩ := List.mem_map.mp hmem
        have := h4 g' dk dv hmem'
        dsimp only at hfst
        omega
      · exact h3 g'
    · intro g' d' v' h'
      rw [setIdx_stores, setStore_stores] at h' ⊢
      split at h'
      · rename_i hg
        rw [if_pos hg]
        dsimp only at h' ⊢
        rcases List.mem_cons.mp h' with hh | hh
        · rw [Prod.mk.injEq] at hh
          obtain ⟨rfl, rfl⟩ := hh
          omega
        · have := h4 g d' v' hh
          omega
      · rename_i hg
        rw [if_neg hg]
        exact h4 g' d' v' h'

theorem worldInv_setStore {G V P : Type} [DecidableEq G] [DecidableEq V]
    {w : World G V P} (hInv : WorldInv w) (g : G) (st : Store V P)
    (hverts : st.verts = (w.stores g).verts)
    (hfresh : st.fresh = (w.stores g).fresh) :
    WorldInv (w.setStore g st) := by
  obtain ⟨h1, h2, h3, h4⟩ := hInv
  refine ⟨?_, ?_, ?_, ?_⟩
  · intro g' v' d' h'
    rw [setStore_stores]
    split
    · rename_i hg
      subst hg
      rw [hverts]
      exact h1 g' v' d' h'
    · exact h1 g' v' d' h'
  · intro g' d' v' h'
    rw [setStore_stores] at h'
    split at h'
    · rename_i hg
      subst hg
      rw [hverts] at h'
      exact h2 g' d' v' h'
    · exact h2 g' d' v' h'
  · intro g'
    rw [setStore_stores]
    split
    · rename_i hg
      subst hg
      rw [hverts]
      exact h3 g'
    · exact h3 g'
  · intro g' d' v' h'
    rw [setStore_stores] at h' ⊢
    split at h'
    · rename_i hg
      rw [if_pos hg, hfresh]
      rw [hverts] at h'
      exact h4 _ d' v' h'
    · rename_i hg
      rw [if_neg hg]
      exact h4 g' d' v' h'

theorem worldInv_remove {G V P : Type} [DecidableEq G] [DecidableEq V]
    {w : World G V P} (hInv : WorldInv w) (g : G) (v : V) :
    WorldInv (graph_remove w g v) := by
  obtain ⟨h1, h2, h3, h4⟩ := hInv
  cases hv : w.idx v g with
  | none => rw [graph_remove, hv]; exact ⟨h1, h2, h3, h4⟩
  | some d =>
    have hdv : alookup (w.stores g).verts d = some v := h1 g v d hv
    simp only [graph_remove, hv, Store.clearVertex, Store.removeVertex]
    refine ⟨?_, ?_, ?_, ?_⟩
    · intro g' v' d' h'
      rw [setIdx_idx] at h'
      rw [setIdx_stores, setStore_stores]
      split at h'
      · cases h'
      · rename_i hc
        have hold := h1 g' v' d' h'
        split
        · rename_i hg
          subst hg
          dsimp only
          have hvv : v' ≠ v := fun hh => hc ⟨hh, rfl⟩
          have hdd : d' ≠ d := by
            intro hh
            subst hh
            rw [hold] at hdv
            exact hvv (Option.some.inj hdv)
          rw [alookup_filter_ne d _ _ hdd]
          exact hold
        · exact hold
    · intro g' d' v' h'
      rw [setIdx_stores, setStore_stores] at h'
      rw [setIdx_idx]
      split at h'
      · rename_i hg
        subst hg
        dsimp only at h'
        have hdd : d' ≠ d := by
          intro hh
          subst hh
          rw [alookup_filter_self] at h'
          cases h'
        rw [alookup_filter_ne d _ _ hdd] at h'
        have hold := h2 g' d' v' h'
        have hvv : v' ≠ v := by
          intro hh
          subst hh
          rw [hv] at hold
          exact hdd (Option.some.inj hold).symm
        rw [if_neg (fun hc => hvv hc.1)]
        exact hold
      · rename_i hg
        have hold := h2 g' d' v' h'
        rw [if_neg (fun hc => hg hc.2)]
        exact hold
    · intro g'
      rw [setIdx_stores, setStore_stores]
      split
      · rename_i hg
        subst hg
        dsimp only
        exact (h3 g').sublist (List.Sublist.map _ (List.filter_sublist _))
      · exact h3 g'
    · intro g' d' v' h'
      rw [setIdx_stores, setStore_stores] at h' ⊢
      split at h'
      · rename_i hg
        rw [if_pos hg]
        dsimp only at h' ⊢
        exact h4 g d' v' (List.mem_of_mem_filter h')
      · rename_i hg
        rw [if_neg hg]
        exact h4 g' d' v' h'

theorem graph_clear_stores {G V P : Type} [DecidableEq G] [DecidableEq V]
    (w : World G V P) (g g' : G) :
    (graph_clear w g).stores g' =
      if g' = g then ⟨[], [], (w.stores g).fresh⟩ else w.stores g' := by
  simp [graph_clear, Function.update_apply]

theorem graph_clear_idx {G V P : Type} [DecidableEq G] [DecidableEq V]
    (w : World G V P) (g : G) (v' : V) (g' : G) :
    (graph_clear w g).idx v' g' =
      if g' = g ∧ (w.stores g).verts.any (fun pr => pr.2 = v') then none
      else w.idx v' g' := rfl

theorem worldInv_clear {G V P : Type} [DecidableEq G] [DecidableEq V]
    {w : World G V P} (hInv : WorldInv w) (g : G) :
    WorldInv (graph_clear w g) := by
  obtain ⟨h1, h2, h3, h4⟩ := hInv
  refine ⟨?_, ?_, ?_, ?_⟩
  · intro g' v' d' h'
    rw [graph_clear_idx] at h'
    rw [graph_clear_stores]
    split at h'
    · cases h'
    · rename_i hc
      have hold := h1 g' v' d' h'
      split
      · rename_i hg
        subst hg
        exfalso
        apply hc
        refine ⟨rfl, ?_⟩
        have hmem := alookup_some_mem _ _ _ hold
        exact List.any_eq_true.mpr ⟨(d', v'), hmem, by simp⟩
      · exact hold
  · intro g' d' v' h'
    rw [graph_clear_stores] at h'
    rw [graph_clear_idx]
    split at h'
    · cases h'
    · rename_i hg
      have hold := h2 g' d' v' h'
      rw [if_neg (fun hc => hg hc.1)]
      exact hold
  · intro g'
    rw [graph_clear_stores]
    split
    · simp
    · exact h3 g'
  · intro g' d' v' h'
    rw [graph_clear_stores] at h' ⊢
    split at h'
    · cases h'
    · rename_i hg
      rw [if_neg hg]
      exact h4 g' d' v' h'



/-- Claim C8: the bidirectional membership invariant — a value is held in
a slot of g's store exactly when its descriptor map has an entry for g
designating that slot — is preserved by every public mutation: insert,
remove, link (with its auto-insert), unlink and clear. -/
theorem claim_C8_membership_invariant {G V P : Type} [DecidableEq G] [DecidableEq V]
    (w : World G V P) (g : G) (v a b : V) (p : P) (hInv : WorldInv w) :
    (∀ g' v', (∃ d, (d, v') ∈ (w.stores g').verts) ↔
      ∃ d, w.idx v' g' = some d ∧ alookup (w.stores g').verts d = some v') ∧
    WorldInv (graph_insert w g v) ∧
    WorldInv (graph_remove w g v) ∧
    WorldInv ((graph_link w g a b p).1) ∧
    WorldInv (graph_unlink w g a b) ∧
    WorldInv (graph_clear w g) := by
  obtain ⟨h1, h2, h3, h4⟩ := hInv
  refine ⟨?_, ?_, ?_, ?_, ?_, ?_⟩
  · intro g' v'
    constructor
    · rintro ⟨d, hd⟩
      have hl := alookup_eq_of_mem _ _ _ (h3 g') hd
      exact ⟨d, h2 g' d v' hl, hl⟩
    · rintro ⟨d, -, hl⟩
      exact ⟨d, alookup_some_mem _ _ _ hl⟩
  · exact worldInv_ensure ⟨h1, h2, h3, h4⟩ g v
  · exact worldInv_remove ⟨h1, h2, h3, h4⟩ g v
  · rcases hEa : graph_ensure w g a with ⟨wa, s⟩
    rcases hEb : graph_ensure wa g b with ⟨wb, t⟩
    have hwa : WorldInv wa := by
      have := worldInv_ensure ⟨h1, h2, h3, h4⟩ g a
      rw [hEa] at this
      exact this
    have hwb : WorldInv wb := by
      have := worldInv_ensure hwa g b
      rw [hEb] at this
      exact this
    simp only [graph_link, hEa, hEb]
    by_cases hdup : ((wb.stores g).edgeLookup s t).isSome
    · simp only [Store.addEdge, hdup, if_true]
      exact hwb
    · simp only [Store.addEdge, hdup]
      simp only [Bool.false_eq_true, if_false, if_true]
      exact worldInv_setStore hwb g _ rfl rfl
  · simp only [graph_unlink]
    cases ha : w.idx a g with
    | none => exact ⟨h1, h2, h3, h4⟩
    | some s =>
      cases hb : w.idx b g with
      | none => exact ⟨h1, h2, h3, h4⟩
      | some t => exact worldInv_setStore ⟨h1, h2, h3, h4⟩ g _ rfl rfl
  · exact worldInv_clear ⟨h1, h2, h3, h4⟩ g

theorem worldInv_empty (G V P : Type) [DecidableEq G] [DecidableEq V] :
    WorldInv (emptyWorld G V P) := by
  refine ⟨?_, ?_, ?_, ?_⟩
  · intro g v d h; cases h
  · intro g d v h; cases h
  · intro g; simp [emptyWorld, emptyStore]
  · intro g d v h; cases h

/-- Witness for C8: the empty world satisfies the invariant, and the five
mutations preserve it there. -/
theorem claim_C8_membership_invariant_witness :
    WorldInv (emptyWorld Nat Nat Nat) ∧
    ((∀ g' v', (∃ d, (d, v') ∈ ((emptyWorld Nat Nat Nat).stores g').verts) ↔
      ∃ d, (emptyWorld Nat Nat Nat).idx v' g' = some d ∧
        alookup ((emptyWorld Nat Nat Nat).stores g').verts d = some v') ∧
    WorldInv (graph_insert (emptyWorld Nat Nat Nat) 0 1) ∧
    WorldInv (graph_remove (emptyWorld Nat Nat Nat) 0 1) ∧
    WorldInv ((graph_link (emptyWorld Nat Nat Nat) 0 2 3 4).1) ∧
    WorldInv (graph_unlink (emptyWorld Nat Nat Nat) 0 2 3) ∧
    WorldInv (graph_clear (emptyWorld Nat Nat Nat) 0)) :=
  ⟨worldInv_empty Nat Nat Nat,
    claim_C8_membership_invariant (emptyWorld Nat Nat Nat) 0 1 2 3 4
      (worldInv_empty Nat Nat Nat)⟩

/-! ### DFS computes pruned reachability (C6) -/

theorem dfsCore_vis_subset (verts : List Nat) (succ : Nat → List Nat)
    (prune : Nat → Bool) : ∀ (stack vis : List Nat),
    vis ⊆ dfsCore verts succ prune stack vis := by
  intro stack vis
  induction stack, vis using dfsCore.induct verts succ prune with
  | case1 vis => simp [dfsCore]
  | case2 v stack vis h ih =>
    rw [dfsCore, dif_pos h]
    exact ih
  | case3 v stack vis h ih =>
    rw [dfsCore, dif_neg h]
    exact fun x hx => ih (List.mem_cons_of_mem v hx)

theorem dfsCore_stack_mem (verts : List Nat) (succ : Nat → List Nat)
    (prune : Nat → Bool) : ∀ (stack vis : List Nat) (x : Nat),
    x ∈ stack → x ∈ verts → x ∈ dfsCore verts succ prune stack vis := by
  intro stack vis
  induction stack, vis using dfsCore.induct verts succ prune with
  | case1 vis => intro x hx _; cases hx
  | case2 v stack vis h ih =>
    intro x hx hxV
    rw [dfsCore, dif_pos h]
    rcases List.mem_cons.mp hx with rfl | hx'
    · rcases h with hvis | hnv
      · exact dfsCore_vis_subset verts succ prune stack vis hvis
      · exact absurd hxV hnv
    · exact ih x hx' hxV
  | case3 v stack vis h ih =>
    intro x hx hxV
    rw [dfsCore, dif_neg h]
    rcases List.mem_cons.mp hx with rfl | hx'
    · exact dfsCore_vis_subset verts succ prune _ _ (List.mem_cons_self x vis)
    · exact ih x (List.mem_append_right _ hx') hxV

theorem dfsCore_sound (verts : List Nat) (succ : Nat → List Nat)
    (prune : Nat → Bool) : ∀ (stack vis : List Nat) (x : Nat),
    x ∈ dfsCore verts succ prune stack vis →
    x ∈ vis ∨ ∃ v ∈ stack, Relation.ReflTransGen (DStep verts succ prune) v x := by
  intro stack vis
  induction stack, vis using dfsCore.induct verts succ prune with
  | case1 vis =>
    intro x hx
    rw [dfsCore] at hx
    exact Or.inl hx
  | case2 v stack vis h ih =>
    intro x hx
    rw [dfsCore, dif_pos h] at hx
    rcases ih x hx with hvis | ⟨u, hu, hru⟩
    · exact Or.inl hvis
    · exact Or.inr ⟨u, List.mem_cons_of_mem v hu, hru⟩
  | case3 v stack vis h ih =>
    intro x hx
    rw [dfsCore, dif_neg h] at hx
    rcases ih x hx with hvis | ⟨u, hu, hru⟩
    · rcases List.mem_cons.mp hvis with rfl | hvis'
      · exact Or.inr ⟨x, List.mem_cons_self x stack, Relation.ReflTransGen.refl⟩
      · exact Or.inl hvis'
    · rcases List.mem_append.mp hu with hupush | hurest
      · by_cases hp : prune v
        · rw [dif_pos hp] at hupush
          cases hupush
        · rw [dif_neg hp] at hupush
          have hmem := List.mem_filter.mp hupush
          refine Or.inr ⟨v, List.mem_cons_self v stack, Relation.ReflTransGen.head ?_ hru⟩
          exact ⟨Bool.eq_false_iff.mpr hp, hmem.1, by simpa using hmem.2⟩
      · exact Or.inr ⟨u, List.mem_cons_of_mem v hurest, hru⟩

theorem dfsCore_closed (verts : List Nat) (succ : Nat → List Nat)
    (prune : Nat → Bool) : ∀ (stack vis : List Nat),
    (∀ u ∈ vis, ∀ x, DStep verts succ prune u x → x ∈ vis ∨ x ∈ stack) →
    ∀ u ∈ dfsCore verts succ prune stack vis, ∀ x,
      DStep verts succ prune u x → x ∈ dfsCore verts succ prune stack vis := by
  intro stack vis
  induction stack, vis using dfsCore.induct verts succ prune with
  | case1 vis =>
    intro hclosed u hu x hstep
    rw [dfsCore] at hu ⊢
    rcases hclosed u hu x hstep with hx | hx
    · exact hx
    · cases hx
  | case2 v stack vis h ih =>
    intro hclosed u hu x hstep
    rw [dfsCore, dif_pos h] at hu ⊢
    refine ih ?_ u hu x hstep
    intro u' hu' x' hstep'
    rcases hclosed u' hu' x' hstep' with hx' | hx'
    · exact Or.inl hx'
    · rcases List.mem_cons.mp hx' with rfl | hx''
      · rcases h with hvis | hnv
        · exact Or.inl hvis
        · exact absurd hstep'.2.2 hnv
      · exact Or.inr hx''
  | case3 v stack vis h ih =>
    intro hclosed u hu x hstep
    rw [dfsCore, dif_neg h] at hu ⊢
    refine ih ?_ u hu x hstep
    intro u' hu' x' hstep'
    rcases List.mem_cons.mp hu' with rfl | hu''
    · obtain ⟨hp, hsucc, hV⟩ := hstep'
      refine Or.inr (List.mem_append_left _ ?_)
      rw [dif_neg (by simp [hp])]
      exact List.mem_filter.mpr ⟨hsucc, by simpa using hV⟩
    · rcases hclosed u' hu'' x' hstep' with hx' | hx'
      · exact Or.inl (List.mem_cons_of_mem v hx')
      · rcases List.mem_cons.mp hx' with rfl | hx''
        · exact Or.inl (List.mem_cons_self x' vis)
        · exact Or.inr (List.mem_append_right _ hx'')

theorem dfs_mem_iff (verts : List Nat) (succ : Nat → List Nat)
    (prune : Nat → Bool) (R : Nat) (hR : R ∈ verts) (x : Nat) :
    x ∈ dfsCore verts succ prune [R] [] ↔
    Relation.ReflTransGen (DStep verts succ prune) R x := by
  constructor
  · intro hx
    rcases dfsCore_sound verts succ prune [R] [] x hx with hvis | ⟨v, hv, hrv⟩
    · cases hvis
    · rcases List.mem_cons.mp hv with rfl | hv'
      · exact hrv
      · cases hv'
  · intro hrtg
    have hRres : R ∈ dfsCore verts succ prune [R] [] :=
      dfsCore_stack_mem verts succ prune [R] [] R (List.mem_cons_self R []) hR
    have hclosed := dfsCore_closed verts succ prune [R] []
      (fun u hu => absurd hu (List.not_mem_nil u))
    induction hrtg with
    | refl => exact hRres
    | tail hab hbc ih => exact hclosed _ ih _ hbc

theorem rtg_iff_chain (r : Nat → Nat → Prop) (a b : Nat) :
    Relation.ReflTransGen r a b ↔
    ∃ l : List Nat, l.head? = some a ∧ l.getLast? = some b ∧ l.Chain' r := by
  constructor
  · intro h
    induction h with
    | refl => exact ⟨[a], rfl, rfl, List.chain'_singleton a⟩
    | tail hab hbc ih =>
      rename_i b' c'
      obtain ⟨l, hhead, hlast, hchain⟩ := ih
      cases l with
      | nil => cases hhead
      | cons x t =>
        refine ⟨x :: t ++ [c'], ?_, ?_, ?_⟩
        · simpa using hhead
        · rw [List.getLast?_concat]
        · rw [List.chain'_append]
          refine ⟨hchain, List.chain'_singleton c', ?_⟩
          intro y hy z hz
          obtain rfl := Option.some.inj (hlast ▸ hy)
          simp only [List.head?_cons, Option.mem_def, Option.some.injEq] at hz
          rw [← hz]
          exact hbc
  · rintro ⟨l, hhead, hlast, hchain⟩
    induction l generalizing a with
    | nil => cases hhead
    | cons x t ih =>
      obtain rfl := Option.some.inj hhead
      cases t with
      | nil =>
        obtain rfl := Option.some.inj hlast
        exact Relation.ReflTransGen.refl
      | cons y t' =>
        have hchain' := List.chain'_cons.mp hchain
        exact Relation.ReflTransGen.head hchain'.1
          (ih y rfl (by simpa using hlast) hchain'.2)

theorem chain_mem_last_or_step (r : Nat → Nat → Prop) :
    ∀ (l : List Nat) (x w : Nat), x ∈ l → l.Chain' r → l.getLast? = some w →
    x = w ∨ ∃ y, r x y := by
  intro l
  induction l with
  | nil => intro x w hx; cases hx
  | cons a t ih =>
    intro x w hx hchain hlast
    cases t with
    | nil =>
      obtain rfl := List.mem_singleton.mp hx
      exact Or.inl (Option.some.inj hlast)
    | cons y t' =>
      have hchain' := List.chain'_cons.mp hchain
      rcases List.mem_cons.mp hx with rfl | hx'
      · exact Or.inr ⟨y, hchain'.1⟩
      · exact ih x w hx' hchain'.2 (by simpa using hlast)

theorem chain_imp_of_mem (r r' : Nat → Nat → Prop) (p : Nat → Prop)
    (himp : ∀ a b, p a → r a b → r' a b) :
    ∀ l : List Nat, (∀ x ∈ l, p x) → l.Chain' r → l.Chain' r' := by
  intro l
  induction l with
  | nil => intro _ _; trivial
  | cons a t ih =>
    intro hp hchain
    cases t with
    | nil => exact List.chain'_singleton a
    | cons y t' =>
      have hchain' := List.chain'_cons.mp hchain
      refine List.chain'_cons.mpr ⟨?_, ?_⟩
      · exact himp a y (hp a (List.mem_cons_self a _)) hchain'.1
      · exact ih (fun x hx => hp x (List.mem_cons_of_mem a hx)) hchain'.2

/-- Claim C6: in a DFS from root R where the visitor requests pruning upon
discovering X (so the terminator fires exactly at X, before X's successors
are expanded), a vertex reachable only through X is never visited, while
every vertex reachable from R along a path avoiding X entirely is still
visited. -/
theorem claim_C6_dfs_prune {V P : Type} (s : Store V P) (R X : Nat)
    (hR : R ∈ s.descs) (hRX : StoreReach s R X) :
    (∀ w, w ≠ X → OnlyThrough s R X w →
      ¬ w ∈ s.dfsVisited R (fun d => d == X)) ∧
    (∀ w, ReachAvoiding s R X w →
      w ∈ s.dfsVisited R (fun d => d == X)) := by
  have hiff := fun x => dfs_mem_iff s.descs s.succs (fun d => d == X) R hR x
  constructor
  · intro w hwX honly hmem
    have hrtg := (hiff w).mp hmem
    obtain ⟨l, hhead, hlast, hchain⟩ := (rtg_iff_chain _ R w).mp hrtg
    have hchainS : l.Chain' (StoreStep s) :=
      hchain.imp (fun a b hab => ⟨hab.2.1, hab.2.2⟩)
    have hXl : X ∈ l := honly l hhead hlast hchainS
    rcases chain_mem_last_or_step _ l X w hXl hchain hlast with rfl | ⟨y, hy⟩
    · exact hwX rfl
    · have := hy.1
      simp at this
  · intro w hw
    obtain ⟨l, hhead, hlast, hchain, hnX⟩ := hw
    have hchainD : l.Chain' (DStep s.descs s.succs (fun d => d == X)) := by
      refine chain_imp_of_mem (StoreStep s) _ (fun x => x ≠ X)
        (fun a b ha hab => ⟨by simpa using ha, hab.1, hab.2⟩) l
        (fun x hx he => hnX (he ▸ hx)) hchain
    exact (hiff w).mpr ((rtg_iff_chain _ R w).mpr ⟨l, hhead, hlast, hchainD⟩)

/-- Witness for C6 on the diamond-free example 0 → {1, 2}, 1 → 3 with
X = 1: vertex 3 is only reachable through 1, vertex 2 avoids it. -/
theorem claim_C6_dfs_prune_witness :
    (∀ w, w ≠ 1 → OnlyThrough dfsExample 0 1 w →
      ¬ w ∈ dfsExample.dfsVisited 0 (fun d => d == 1)) ∧
    (∀ w, ReachAvoiding dfsExample 0 1 w →
      w ∈ dfsExample.dfsVisited 0 (fun d => d == 1)) :=
  claim_C6_dfs_prune dfsExample 0 1 (by decide)
    (Relation.ReflTransGen.single (show StoreStep dfsExample 0 1 by
      constructor <;> decide))

/-! ### Connected components (C3, C4) -/

theorem alookup_append_some {K A : Type} [DecidableEq K] :
    ∀ (l1 l2 : List (K × A)) (k : K) (x : A),
    alookup l1 k = some x → alookup (l1 ++ l2) k = some x := by
  intro l1 l2 k x h
  induction l1 with
  | nil => cases h
  | cons hd tl ih =>
    obtain ⟨k', x'⟩ := hd
    simp only [alookup, List.cons_append] at h ⊢
    by_cases hk : k' = k
    · rw [if_pos hk] at h ⊢; exact h
    · rw [if_neg hk] at h ⊢; exact ih h

theorem alookup_append_none {K A : Type} [DecidableEq K] :
    ∀ (l1 l2 : List (K × A)) (k : K),
    alookup l1 k = none → alookup (l1 ++ l2) k = alookup l2 k := by
  intro l1 l2 k h
  induction l1 with
  | nil => rfl
  | cons hd tl ih =>
    obtain ⟨k', x'⟩ := hd
    simp only [alookup, List.cons_append] at h ⊢
    by_cases hk : k' = k
    · rw [if_pos hk] at h; cases h
    · rw [if_neg hk] at h ⊢; exact ih h

theorem alookup_map_pair_const {A : Type} [DecidableEq A] :
    ∀ (l : List A) (n : Nat) (k : A),
    alookup (l.map (fun x => (x, n))) k = if k ∈ l then some n else none := by
  intro l n k
  induction l with
  | nil => simp [alookup]
  | cons a t ih =>
    simp only [List.map_cons, alookup]
    by_cases hk : a = k
    · subst hk
      rw [if_pos rfl, if_pos (List.mem_cons_self a t)]
    · rw [if_neg hk, ih]
      by_cases hm : k ∈ t
      · rw [if_pos hm, if_pos (List.mem_cons_of_mem a hm)]
      · rw [if_neg hm, if_neg (fun hc => by
          rcases List.mem_cons.mp hc with h1 | h1
          · exact hk h1.symm
          · exact hm h1)]

theorem compAssignAux_keeps (D : List Nat) (adj : Nat → List Nat) :
    ∀ (rest : List Nat) (acc : List (Nat × Nat)) (n : Nat) (d i : Nat),
    alookup acc d = some i →
    alookup (compAssignAux D adj rest acc n).1 d = some i := by
  intro rest
  induction rest with
  | nil => intro acc n d i h; exact h
  | cons e rest ih =>
    intro acc n d i h
    rw [compAssignAux]
    split
    · exact ih acc n d i h
    · exact ih _ _ d i (alookup_append_some _ _ _ _ h)

theorem compAssignAux_main (D : List Nat) (adj : Nat → List Nat) :
    ∀ (rest : List Nat) (acc : List (Nat × Nat)) (n : Nat),
    (∀ d ∈ rest, d ∈ D) →
    (∀ d i, alookup acc d = some i → i < n) →
    (∀ d i, alookup (compAssignAux D adj rest acc n).1 d = some i →
      i < (compAssignAux D adj rest acc n).2) ∧
    (∀ d ∈ rest, (alookup (compAssignAux D adj rest acc n).1 d).isSome) := by
  intro rest
  induction rest with
  | nil =>
    intro acc n _ hbound
    rw [compAssignAux]
    exact ⟨hbound, fun d hd => absurd hd (List.not_mem_nil d)⟩
  | cons e rest ih =>
    intro acc n hrest hbound
    rw [compAssignAux]
    split
    · rename_i hassigned
      obtain ⟨⟨B1, B2⟩⟩ :
          Nonempty ((∀ d i,
              alookup (compAssignAux D adj rest acc n).1 d = some i →
                i < (compAssignAux D adj rest acc n).2) ∧
            (∀ d ∈ rest, (alookup (compAssignAux D adj rest acc n).1 d).isSome)) :=
        ⟨ih acc n (fun d hd => hrest d (List.mem_cons_of_mem e hd)) hbound⟩
      refine ⟨B1, fun d hd => ?_⟩
      rcases List.mem_cons.mp hd with rfl | hd'
      · obtain ⟨i, hi⟩ := Option.isSome_iff_exists.mp hassigned
        rw [compAssignAux_keeps D adj rest acc n d i hi]
        rfl
      · exact B2 d hd'
    · rename_i hassigned
      have heD : e ∈ D := hrest e (List.mem_cons_self e rest)
      have hacc_e : alookup acc e = none := by
        cases hae : alookup acc e with
        | none => rfl
        | some j => rw [hae] at hassigned; exact absurd rfl hassigned
      have hbound' : ∀ d i,
          alookup (acc ++
            ((dfsCore D adj (fun _ => false) [e] (acc.map Prod.fst)).filter
              (fun x => ¬ (alookup acc x).isSome)).map (fun x => (x, n))) d = some i →
          i < n + 1 := by
        intro d i h
        cases had : alookup acc d with
        | some j =>
          rw [alookup_append_some _ _ _ _ had] at h
          have := hbound d j had
          obtain rfl := Option.some.inj h
          omega
        | none =>
          rw [alookup_append_none _ _ _ had, alookup_map_pair_const] at h
          split at h
          · obtain rfl := Option.some.inj h
            omega
          · cases h
      have hef : e ∈ (dfsCore D adj (fun _ => false) [e] (acc.map Prod.fst)).filter
          (fun x => ¬ (alookup acc x).isSome) := by
        refine List.mem_filter.mpr ⟨?_, ?_⟩
        · exact dfsCore_stack_mem D adj (fun _ => false) [e] (acc.map Prod.fst) e
            (List.mem_cons_self e []) heD
        · simp [hacc_e]
      have hacc'_e : alookup (acc ++
          ((dfsCore D adj (fun _ => false) [e] (acc.map Prod.fst)).filter
            (fun x => ¬ (alookup acc x).isSome)).map (fun x => (x, n))) e = some n := by
        rw [alookup_append_none _ _ _ hacc_e, alookup_map_pair_const, if_pos hef]
      obtain ⟨B1, B2⟩ := ih _ (n + 1) (fun d hd => hrest d (List.mem_cons_of_mem e hd))
        hbound'
      refine ⟨B1, fun d hd => ?_⟩
      rcases List.mem_cons.mp hd with rfl | hd'
      · rw [compAssignAux_keeps D adj rest _ (n + 1) d n hacc'_e]
        rfl
      · exact B2 d hd'

theorem compAssign_props {V P : Type} (s : Store V P) :
    (∀ d i, alookup s.compAssign.1 d = some i → i < s.compAssign.2) ∧
    (∀ d ∈ s.descs, (alookup s.compAssign.1 d).isSome) :=
  compAssignAux_main s.descs s.uadj s.descs [] 0 (fun _ hd => hd)
    (fun _ _ h => nomatch h)

theorem foldl_rubyStore_range {A : Type} (f : Nat → A) :
    ∀ n : Nat, (List.range n).foldl (fun acc i => rubyStore acc i (f i)) [] =
      (List.range n).map (fun i => some (f i)) := by
  intro n
  induction n with
  | zero => rfl
  | succ n ih =>
    rw [List.range_succ, List.foldl_append, ih, List.map_append]
    simp only [List.foldl_cons, List.foldl_nil, List.map_cons, List.map_nil]
    rw [rubyStore]
    rw [if_neg (by simp)]
    simp

theorem reduceOption_map_some {A B : Type} (f : A → B) :
    ∀ l : List A, (l.map (fun x => some (f x))).reduceOption = l.map f := by
  intro l
  induction l with
  | nil => rfl
  | cons a t ih => simp [List.reduceOption_cons_of_some, ih]

theorem graph_components_noseeds {G V P : Type} [DecidableEq G] [DecidableEq V]
    (w : World G V P) (g : G) :
    graph_components w g [] =
      (List.range ((w.stores g).compAssign.2)).map (fun i =>
        (((w.stores g).verts.filter
          (fun pr => alookup ((w.stores g).compAssign.1) pr.1 == some i)).map
            Prod.snd)) := by
  simp only [graph_components, List.isEmpty_nil, if_true]
  rw [foldl_rubyStore_range, reduceOption_map_some]

theorem worldInv_value_inj {G V P : Type} [DecidableEq G] [DecidableEq V]
    {w : World G V P} (hInv : WorldInv w) (g : G) :
    ∀ d1 d2 val, (d1, val) ∈ (w.stores g).verts →
      (d2, val) ∈ (w.stores g).verts → d1 = d2 := by
  obtain ⟨h1, h2, h3, h4⟩ := hInv
  intro d1 d2 val hm1 hm2
  have l1 := alookup_eq_of_mem _ _ _ (h3 g) hm1
  have l2 := alookup_eq_of_mem _ _ _ (h3 g) hm2
  have i1 := h2 g d1 val l1
  have i2 := h2 g d2 val l2
  rw [i1] at i2
  exact Option.some.inj i2

/-- Claim C3: with no seed arguments, `components` returns a family of
vertex sets partitioning the graph's vertex set — their union is the set
of all vertex values and they are pairwise disjoint.  The hypothesis is
the store/index well-formedness that holds for every graph built through
the public API (insert/link, cf. C8). -/
theorem claim_C3_components_partition {G V P : Type} [DecidableEq G] [DecidableEq V]
    (w : World G V P) (g : G) (hInv : WorldInv w) :
    (∀ val, (∃ c ∈ graph_components w g [], val ∈ c) ↔
      val ∈ (w.stores g).values) ∧
    List.Pairwise (fun c1 c2 => ∀ x, x ∈ c1 → ¬ x ∈ c2)
      (graph_components w g []) := by
  rw [graph_components_noseeds]
  constructor
  · intro val
    constructor
    · rintro ⟨c, hc, hval⟩
      obtain ⟨i, -, rfl⟩ := List.mem_map.mp hc
      obtain ⟨pr, hpr, rfl⟩ := List.mem_map.mp hval
      exact List.mem_map.mpr ⟨pr, List.mem_of_mem_filter hpr, rfl⟩
    · intro hval
      obtain ⟨pr, hmem, hval'⟩ := List.mem_map.mp hval
      have hdD : pr.1 ∈ (w.stores g).descs := List.mem_map.mpr ⟨pr, hmem, rfl⟩
      obtain ⟨i, hi⟩ := Option.isSome_iff_exists.mp
        ((compAssign_props (w.stores g)).2 pr.1 hdD)
      have hic := (compAssign_props (w.stores g)).1 pr.1 i hi
      refine ⟨_, List.mem_map.mpr ⟨i, List.mem_range.mpr hic, rfl⟩, ?_⟩
      exact List.mem_map.mpr ⟨pr,
        List.mem_filter.mpr ⟨hmem, by simp [hi]⟩, hval'⟩
  · rw [List.pairwise_map]
    have hrange : List.Pairwise (· < ·)
        (List.range ((w.stores g).compAssign.2)) := List.pairwise_lt_range _
    refine hrange.imp ?_
    intro i j hij x hxi hxj
    obtain ⟨⟨d1, v1⟩, hf1, hv1⟩ := List.mem_map.mp hxi
    obtain ⟨⟨d2, v2⟩, hf2, hv2⟩ := List.mem_map.mp hxj
    have hvv : v2 = v1 := hv2.trans hv1.symm
    subst hvv
    obtain ⟨hm1, hl1⟩ := List.mem_filter.mp hf1
    obtain ⟨hm2, hl2⟩ := List.mem_filter.mp hf2
    have hd12 := worldInv_value_inj hInv g d1 d2 _ hm1 hm2
    subst hd12
    have e1 : alookup ((w.stores g).compAssign.1) d1 = some i := by
      simpa using hl1
    have e2 : alookup ((w.stores g).compAssign.1) d1 = some j := by
      simpa using hl2
    rw [e1] at e2
    obtain rfl := Option.some.inj e2
    exact lt_irrefl i hij

/-- Witness for C3 at the empty world (where components is empty and the
vertex set is empty). -/
theorem claim_C3_components_partition_witness :
    WorldInv (emptyWorld Nat Nat Nat) ∧
    ((∀ val, (∃ c ∈ graph_components (emptyWorld Nat Nat Nat) 0 [], val ∈ c) ↔
      val ∈ ((emptyWorld Nat Nat Nat).stores 0).values) ∧
    List.Pairwise (fun c1 c2 => ∀ x, x ∈ c1 → ¬ x ∈ c2)
      (graph_components (emptyWorld Nat Nat Nat) 0 [])) :=
  ⟨worldInv_empty Nat Nat Nat,
    claim_C3_components_partition (emptyWorld Nat Nat Nat) 0
      (worldInv_empty Nat Nat Nat)⟩

/-- Claim C4 is violated by `graph_components` (bgl.cc:815-873): on the
graph {1 → 2} (descriptors 0 → 1) queried with seeds [3, 1], the seed scan
first pushes the singleton [3] for the absent seed 3 into `ret`, and the
store loop then calls `rb_ary_store(ret, 0, ...)` for the enabled component
id 0, overwriting the singleton.  The result is [[2, 1]] and seed 3 is
absent from every returned component, contradicting the claim. -/
theorem claim_C4_components_absent_seed_lost :
    graph_components ((graph_link (emptyWorld Nat Nat Nat) 0 1 2 0).1) 0 [3, 1] =
      [[2, 1]] ∧
    ∀ c ∈ graph_components ((graph_link (emptyWorld Nat Nat Nat) 0 1 2 0).1) 0 [3, 1],
      ¬ (3 : Nat) ∈ c := by
  have hmain : graph_components ((graph_link (emptyWorld Nat Nat Nat) 0 1 2 0).1) 0
      [3, 1] = [[2, 1]] := by
    simp [graph_components, Store.compAssign, compAssignAux, dfsCore, Store.uadj,
      Store.succs, Store.preds, Store.descs, Store.values, rubyStore, alookup,
      graph_link, graph_ensure, emptyWorld, emptyStore, Store.addVertex,
      Store.addEdge, Store.edgeLookup, World.setStore, World.setIdx,
      Function.update, List.range_succ]
  refine ⟨hmain, ?_⟩
  rw [hmain]
  intro c hc
  simp only [List.mem_singleton] at hc
  subst hc
  decide

end Roby
